import Mathlib

/-!
A shallow embedding in Lean 4 of the `compgraph` dataflow engine
(`src/compgraph`): rows, key extraction, the grouping discipline of
`itertools.groupby`, the `Map`, `Reduce`, `Join` operations, the joiner
strategies, the `TopN` reducer, the external sort, and the `Graph.run`
evaluator, together with proofs settling the frozen specification claims.

Rows are Python dicts: insertion-ordered maps from column name to value.
We model a row as an association list and implement the exact dict
operations the source uses (`row[k]`, `row[k] = v`, `row.pop(k)`,
`dict.update`).  Two rows are dict-equal (`Row.eqv`) when they contain the
same key/value pairs, regardless of insertion order.
-/

namespace CG

/-- Values stored in row cells.  The claims exercise integer and string
cells; other Python value types play no role in the claimed behaviour. -/
inductive Value where
  | int (i : Int)
  | str (s : String)
  deriving DecidableEq, Repr

/-- A row: a Python dict, i.e. an insertion-ordered association list with
(by construction) unique keys. -/
abbrev Row := List (String × Value)

namespace Row

/-- Python `row.get(k)` / `row[k]`: first binding of `k`. -/
def find? (r : Row) (k : String) : Option Value :=
  match r with
  | [] => none
  | (k', v) :: rest => if k' = k then some v else find? rest k

/-- Python `row[k] = v`: replace in place when `k` is present (dicts keep
the original position of an updated key), append otherwise. -/
def set (r : Row) (k : String) (v : Value) : Row :=
  match r with
  | [] => [(k, v)]
  | (k', v') :: rest => if k' = k then (k, v) :: rest else (k', v') :: set rest k v

/-- Python `row.pop(k)` (the removal part): drop the binding of `k`. -/
def erase (r : Row) (k : String) : Row :=
  match r with
  | [] => []
  | (k', v') :: rest => if k' = k then rest else (k', v') :: erase rest k

/-- Python `dst.update(src)`: assign every binding of `src` into `dst`
in `src`'s iteration order. -/
def update (dst src : Row) : Row :=
  src.foldl (fun acc kv => acc.set kv.1 kv.2) dst

/-- The column names of a row, in insertion order (`row.keys()`). -/
def cols (r : Row) : List String := r.map Prod.fst

/-- Python dict equality: same keys bound to the same values, insertion
order ignored. -/
def eqv (a b : Row) : Bool :=
  a.all (fun kv => b.find? kv.1 == some kv.2) &&
  b.all (fun kv => a.find? kv.1 == some kv.2)

end Row

/-- The key value of a row under a key tuple `K`: Python
`[row[k] for k in keys]`.  A missing column is the distinct "absent"
value (spec section 7), modelled by `none`. -/
def keyOf (keys : List String) (r : Row) : List (Option Value) :=
  keys.map (fun k => r.find? k)

/-- Python `<` on two cell values: numbers by value, strings
lexicographically.  Python raises `TypeError` on a mixed-type comparison;
the model totalises it (ints before strings), which the engine never
relies on for homogeneous keys. -/
def Value.blt : Value → Value → Bool
  | .int a, .int b => a < b
  | .str a, .str b => a < b
  | .int _, .str _ => true
  | .str _, .int _ => false

/-- `<` lifted to maybe-absent cell values (absent sorts first). -/
def optValLt : Option Value → Option Value → Bool
  | none, none => false
  | none, some _ => true
  | some _, none => false
  | some a, some b => Value.blt a b

/-- Python list comparison on key values: elementwise, first non-equal
position decides; a strict prefix is smaller. -/
def keyLt : List (Option Value) → List (Option Value) → Bool
  | [], [] => false
  | [], _ :: _ => true
  | _ :: _, [] => false
  | a :: as, b :: bs => if a = b then keyLt as bs else optValLt a b

section OrderLemmas

theorem Value.blt_irrefl (a : Value) : Value.blt a a = false := by
  cases a <;> simp [Value.blt]

theorem Value.blt_asymm : ∀ {a b : Value}, Value.blt a b = true → Value.blt b a = false
  | .int _, .int _, h => by
      simp only [Value.blt, decide_eq_true_eq, decide_eq_false_iff_not] at h ⊢; omega
  | .str _, .str _, h => by
      simp only [Value.blt, decide_eq_true_eq, decide_eq_false_iff_not] at h ⊢
      exact lt_asymm h
  | .int _, .str _, _ => by simp [Value.blt]
  | .str _, .int _, h => by simp [Value.blt] at h

theorem Value.blt_trans : ∀ {a b c : Value},
    Value.blt a b = true → Value.blt b c = true → Value.blt a c = true
  | .int _, .int _, .int _, h1, h2 => by
      simp only [Value.blt, decide_eq_true_eq] at h1 h2 ⊢; omega
  | .int _, .int _, .str _, _, _ => by simp [Value.blt]
  | .int _, .str _, .int _, _, h2 => by simp [Value.blt] at h2
  | .int _, .str _, .str _, _, _ => by simp [Value.blt]
  | .str _, .int _, _, h1, _ => by simp [Value.blt] at h1
  | .str _, .str _, .int _, _, h2 => by simp [Value.blt] at h2
  | .str _, .str _, .str _, h1, h2 => by
      simp only [Value.blt, decide_eq_true_eq] at h1 h2 ⊢
      exact lt_trans h1 h2

theorem Value.blt_connex : ∀ {a b : Value},
    a ≠ b → Value.blt a b = true ∨ Value.blt b a = true
  | .int a, .int b, h => by
      have hne : a ≠ b := by intro he; exact h (by rw [he])
      simp only [Value.blt, decide_eq_true_eq]; omega
  | .str a, .str b, h => by
      have hne : a ≠ b := by intro he; exact h (by rw [he])
      simp only [Value.blt, decide_eq_true_eq]
      exact lt_or_gt_of_ne hne
  | .int _, .str _, _ => by simp [Value.blt]
  | .str _, .int _, _ => by simp [Value.blt]

theorem optValLt_irrefl (a : Option Value) : optValLt a a = false := by
  cases a <;> simp [optValLt, Value.blt_irrefl]

theorem optValLt_asymm {a b : Option Value} (h : optValLt a b = true) :
    optValLt b a = false := by
  cases a <;> cases b <;> simp_all [optValLt, Value.blt_asymm]

theorem optValLt_trans {a b c : Option Value} (h1 : optValLt a b = true)
    (h2 : optValLt b c = true) : optValLt a c = true := by
  cases a <;> cases b <;> cases c <;> simp_all [optValLt]
  exact Value.blt_trans h1 h2

theorem optValLt_connex {a b : Option Value} (h : a ≠ b) :
    optValLt a b = true ∨ optValLt b a = true := by
  cases a <;> cases b <;> simp_all [optValLt]
  exact Value.blt_connex h

theorem keyLt_irrefl (a : List (Option Value)) : keyLt a a = false := by
  induction a with
  | nil => simp [keyLt]
  | cons x xs ih => simp [keyLt, ih]

theorem keyLt_asymm {a b : List (Option Value)} (h : keyLt a b = true) :
    keyLt b a = false := by
  induction a generalizing b with
  | nil => cases b <;> simp [keyLt]
  | cons x xs ih =>
    cases b with
    | nil => simp [keyLt] at h
    | cons y ys =>
      by_cases hxy : x = y
      · subst hxy
        simp [keyLt] at h ⊢
        exact ih h
      · simp [keyLt, hxy, Ne.symm hxy] at h ⊢
        exact optValLt_asymm h

theorem keyLt_trans {a b c : List (Option Value)} (h1 : keyLt a b = true)
    (h2 : keyLt b c = true) : keyLt a c = true := by
  induction a generalizing b c with
  | nil =>
    cases b with
    | nil => simp [keyLt] at h1
    | cons y ys => cases c with
      | nil => simp [keyLt] at h2
      | cons z zs => simp [keyLt]
  | cons x xs ih =>
    cases b with
    | nil => simp [keyLt] at h1
    | cons y ys =>
      cases c with
      | nil => simp [keyLt] at h2
      | cons z zs =>
        by_cases hxy : x = y
        · subst hxy
          by_cases hyz : x = z
          · subst hyz
            simp [keyLt] at h1 h2 ⊢
            exact ih h1 h2
          · simp [keyLt, hyz] at h2 ⊢
            simp [keyLt] at h1
            exact h2
        · by_cases hyz : y = z
          · subst hyz
            simp [keyLt, hxy] at h1 ⊢
            exact h1
          · by_cases hxz : x = z
            · subst hxz
              simp [keyLt, hxy, Ne.symm hxy] at h1
              simp [keyLt, hyz, Ne.symm hyz] at h2
              have := optValLt_trans h1 h2
              rw [optValLt_asymm h2] at h1
              exact absurd h1 (by simp)
            · simp [keyLt, hxy, hyz, hxz] at h1 h2 ⊢
              exact optValLt_trans h1 h2

theorem keyLt_connex {a b : List (Option Value)} (h : a ≠ b) :
    keyLt a b = true ∨ keyLt b a = true := by
  induction a generalizing b with
  | nil =>
    cases b with
    | nil => exact absurd rfl h
    | cons y ys => left; simp [keyLt]
  | cons x xs ih =>
    cases b with
    | nil => right; simp [keyLt]
    | cons y ys =>
      by_cases hxy : x = y
      · subst hxy
        have hne : xs ≠ ys := by
          intro he; exact h (by rw [he])
        rcases ih hne with h1 | h1
        · left; simp [keyLt, h1]
        · right; simp [keyLt, h1]
      · rcases optValLt_connex hxy with h1 | h1
        · left; simp [keyLt, hxy, h1]
        · right; simp [keyLt, Ne.symm hxy, h1]

/-- Not-less-than is transitive (`keyLt` is a strict total order on keys). -/
theorem keyLt_le_trans {a b c : List (Option Value)}
    (h1 : keyLt b a = false) (h2 : keyLt c b = false) : keyLt c a = false := by
  by_contra hca
  simp only [Bool.not_eq_false] at hca
  by_cases hab : a = b
  · subst hab; simp_all
  · by_cases hbc : b = c
    · subst hbc; simp_all
    · rcases keyLt_connex hab with h | h
      · exact absurd (keyLt_trans hca h) (by simp [h2])
      · simp_all

end OrderLemmas

/-! ## Grouping: `itertools.groupby`

`Reduce.__call__` and `Join.__call__` both group their input with
`itertools.groupby(rows, key=lambda row: [row[k] for k in keys])`.
On a materialised stream this yields the maximal contiguous runs of
elements sharing a key value, each tagged with that key.  `groupby`
advances past any rows of the current group the consumer did not pull, so
the decomposition into runs does not depend on the consumer. -/

variable {α : Type} {κ : Type}

/-- Maximal contiguous runs of `l` under key function `f`, each tagged
with the run's key (the semantics of `itertools.groupby`). -/
def groupRuns [DecidableEq κ] (f : α → κ) : List α → List (κ × List α)
  | [] => []
  | x :: xs =>
    match groupRuns f xs with
    | [] => [(f x, [x])]
    | (k, g) :: rest =>
      if f x = k then (f x, x :: g) :: rest else (f x, [x]) :: (k, g) :: rest

/-- All elements of a run share one key value. -/
def ConstKey (f : α → κ) (g : List α) : Prop :=
  ∀ a ∈ g, ∀ b ∈ g, f a = f b

/-- `gs` is the decomposition of `S` into maximal contiguous runs of
`f`-equal elements, stated the way the spec words it: the runs
concatenate back to `S`, each run is non-empty and `f`-constant, and
adjacent runs carry different key values (maximality). -/
def MaximalRuns (f : α → κ) (S : List α) (gs : List (List α)) : Prop :=
  gs.flatten = S ∧ (∀ g ∈ gs, g ≠ []) ∧ (∀ g ∈ gs, ConstKey f g) ∧
  List.Chain' (fun g h => ∀ a ∈ g, ∀ b ∈ h, f a ≠ f b) gs

theorem groupRuns_flatten [DecidableEq κ] (f : α → κ) :
    ∀ l : List α, ((groupRuns f l).map Prod.snd).flatten = l := by
  intro l
  induction l with
  | nil => rfl
  | cons x xs ih =>
    simp only [groupRuns]
    cases h : groupRuns f xs with
    | nil =>
      rw [h] at ih
      simp at ih
      simp [← ih]
    | cons p rest =>
      obtain ⟨k, g⟩ := p
      rw [h] at ih
      by_cases hk : f x = k
      · simp only [hk, if_true]
        simpa using ih
      · simp only [hk, if_false]
        simpa using ih

theorem groupRuns_ne_nil [DecidableEq κ] (f : α → κ) :
    ∀ l : List α, ∀ p ∈ groupRuns f l, p.2 ≠ [] := by
  intro l
  induction l with
  | nil => intro p hp; simp [groupRuns] at hp
  | cons x xs ih =>
    intro p hp
    simp only [groupRuns] at hp
    cases h : groupRuns f xs with
    | nil =>
      rw [h] at hp; simp at hp; simp [hp]
    | cons q rest =>
      obtain ⟨k, g⟩ := q
      rw [h] at hp
      by_cases hk : f x = k
      · simp only [hk, if_true] at hp
        rcases List.mem_cons.mp hp with h1 | h1
        · simp [h1]
        · exact ih p (h ▸ List.mem_cons_of_mem _ h1)
      · simp only [hk, if_false] at hp
        rcases List.mem_cons.mp hp with h1 | h1
        · simp [h1]
        · exact ih p (h ▸ h1)

theorem groupRuns_constKey [DecidableEq κ] (f : α → κ) :
    ∀ l : List α, ∀ p ∈ groupRuns f l, ∀ a ∈ p.2, f a = p.1 := by
  intro l
  induction l with
  | nil => intro p hp; simp [groupRuns] at hp
  | cons x xs ih =>
    intro p hp a ha
    simp only [groupRuns] at hp
    cases h : groupRuns f xs with
    | nil =>
      rw [h] at hp; simp at hp
      subst hp; simp at ha; subst ha; rfl
    | cons q rest =>
      obtain ⟨k, g⟩ := q
      rw [h] at hp
      by_cases hk : f x = k
      · simp only [hk, if_true] at hp
        rcases List.mem_cons.mp hp with h1 | h1
        · subst h1
          simp only [] at ha ⊢
          rcases List.mem_cons.mp ha with h2 | h2
          · subst h2; exact hk
          · have := ih (k, g) (h ▸ List.mem_cons_self _ _) a h2
            simpa [hk] using this
        · exact ih p (h ▸ List.mem_cons_of_mem _ h1) a ha
      · simp only [hk, if_false] at hp
        rcases List.mem_cons.mp hp with h1 | h1
        · subst h1; simp at ha; subst ha; rfl
        · exact ih p (h ▸ h1) a ha

theorem groupRuns_chain [DecidableEq κ] (f : α → κ) :
    ∀ l : List α, List.Chain' (fun p q => p.1 ≠ q.1) (groupRuns f l) := by
  intro l
  induction l with
  | nil => simp [groupRuns]
  | cons x xs ih =>
    simp only [groupRuns]
    cases h : groupRuns f xs with
    | nil => simp
    | cons q rest =>
      obtain ⟨k, g⟩ := q
      rw [h] at ih
      by_cases hk : f x = k
      · simp only [hk, if_true]
        cases rest with
        | nil => simp
        | cons q2 rest2 =>
          rw [List.chain'_cons] at ih ⊢
          exact ⟨by simpa [hk] using ih.1, ih.2⟩
      · simp only [hk, if_false]
        rw [List.chain'_cons]
        exact ⟨hk, ih⟩

/-- The head of `groupRuns` on a non-empty list starts with the first
element and carries its key. -/
theorem groupRuns_cons [DecidableEq κ] (f : α → κ) (x : α) (xs : List α) :
    ∃ t rest, groupRuns f (x :: xs) = (f x, x :: t) :: rest := by
  simp only [groupRuns]
  cases h : groupRuns f xs with
  | nil => exact ⟨[], [], rfl⟩
  | cons q rest =>
    obtain ⟨k, g⟩ := q
    by_cases hk : f x = k
    · exact ⟨g, rest, by simp [hk]⟩
    · exact ⟨[], (k, g) :: rest, by simp [hk]⟩

/-- Adjacent runs produced by `groupRuns` have elementwise-different keys. -/
theorem groupRuns_chain_elem [DecidableEq κ] (f : α → κ) :
    ∀ l : List α,
      List.Chain' (fun p q : κ × List α => ∀ a ∈ p.2, ∀ b ∈ q.2, f a ≠ f b)
        (groupRuns f l) := by
  intro l
  have key : ∀ p ∈ groupRuns f l, ∀ a ∈ p.2, f a = p.1 := groupRuns_constKey f l
  have ch : List.Chain' (fun p q : κ × List α => p.1 ≠ q.1) (groupRuns f l) :=
    groupRuns_chain f l
  revert key ch
  generalize groupRuns f l = ps
  intro key ch
  induction ps with
  | nil => simp
  | cons p rest ih =>
    cases rest with
    | nil => simp
    | cons q rest2 =>
      rw [List.chain'_cons] at ch ⊢
      constructor
      · intro a ha b hb
        rw [key p (List.mem_cons_self _ _) a ha,
          key q (List.mem_cons_of_mem _ (List.mem_cons_self _ _)) b hb]
        exact ch.1
      · exact ih (fun r hr => key r (List.mem_cons_of_mem _ hr)) ch.2

/-- `groupRuns` computes a maximal-runs decomposition. -/
theorem groupRuns_maximalRuns [DecidableEq κ] (f : α → κ) (l : List α) :
    MaximalRuns f l ((groupRuns f l).map Prod.snd) := by
  refine ⟨groupRuns_flatten f l, ?_, ?_, ?_⟩
  · intro g hg
    obtain ⟨p, hp, hpe⟩ := List.mem_map.mp hg
    exact hpe ▸ groupRuns_ne_nil f l p hp
  · intro g hg a ha b hb
    obtain ⟨p, hp, hpe⟩ := List.mem_map.mp hg
    subst hpe
    rw [groupRuns_constKey f l p hp a ha, groupRuns_constKey f l p hp b hb]
  · rw [List.chain'_map]
    exact groupRuns_chain_elem f l

instance (f : α → κ) [DecidableEq κ] (g : List α) : Decidable (ConstKey f g) :=
  inferInstanceAs (Decidable (∀ a ∈ g, ∀ b ∈ g, f a = f b))

instance (f : α → κ) [DecidableEq α] [DecidableEq κ] (S : List α)
    (gs : List (List α)) : Decidable (MaximalRuns f S gs) :=
  inferInstanceAs (Decidable (_ ∧ _ ∧ _ ∧ _))

/-- One-step unfolding of `groupRuns` on a cons cell. -/
theorem groupRuns_cons_eq [DecidableEq κ] (f : α → κ) (x : α) (xs : List α) :
    groupRuns f (x :: xs) =
      match groupRuns f xs with
      | [] => [(f x, [x])]
      | (k, g) :: rest =>
        if f x = k then (f x, x :: g) :: rest else (f x, [x]) :: (k, g) :: rest := rfl

/-- Prepending one `f`-constant run to a stream whose first element (if
any) has a different key extends `groupRuns` by exactly that run. -/
theorem groupRuns_append_run [DecidableEq κ] {f : α → κ} {k : κ} :
    ∀ (g T : List α), g ≠ [] → (∀ a ∈ g, f a = k) →
      (∀ q, (groupRuns f T).head? = some q → q.1 ≠ k) →
      groupRuns f (g ++ T) = (k, g) :: groupRuns f T := by
  intro g
  induction g with
  | nil => intro T hne; exact absurd rfl hne
  | cons a g' ih =>
    intro T _ hkeys hhead
    have hak : f a = k := hkeys a (List.mem_cons_self _ _)
    cases g' with
    | nil =>
      show groupRuns f (a :: T) = (k, [a]) :: groupRuns f T
      rw [groupRuns_cons_eq]
      cases hT : groupRuns f T with
      | nil => simp [hak]
      | cons q rest =>
        have hq : q.1 ≠ k := hhead q (by rw [hT]; rfl)
        obtain ⟨k', gq⟩ := q
        have hne2 : f a ≠ k' := by rw [hak]; exact fun he => hq he.symm
        have hne3 : ¬ k = k' := fun he => hq he.symm
        simp [hne2, hne3, hak]
    | cons b g2 =>
      have hrec : groupRuns f (b :: (g2 ++ T)) = (k, b :: g2) :: groupRuns f T := by
        have := ih T (by simp) (fun x hx => hkeys x (List.mem_cons_of_mem _ hx)) hhead
        simpa using this
      show groupRuns f (a :: (b :: (g2 ++ T))) = (k, a :: b :: g2) :: groupRuns f T
      rw [groupRuns_cons_eq, hrec]
      simp [hak]

/-- Uniqueness: any decomposition of `S` into maximal contiguous
`f`-equal runs is the one `groupRuns` computes.  Together with
`groupRuns_maximalRuns` this says `groupRuns` is *the* maximal-runs
decomposition. -/
theorem maximalRuns_eq_groupRuns [DecidableEq κ] {f : α → κ} :
    ∀ {gs : List (List α)} {S : List α}, MaximalRuns f S gs →
      (groupRuns f S).map Prod.snd = gs := by
  intro gs
  induction gs with
  | nil =>
    intro S h
    obtain ⟨hf, _, _, _⟩ := h
    simp at hf
    subst hf
    rfl
  | cons g rest ih =>
    intro S h
    obtain ⟨hf, hne, hconst, hchain⟩ := h
    have hgne : g ≠ [] := hne g (List.mem_cons_self _ _)
    obtain ⟨a, g', rfl⟩ : ∃ a g', g = a :: g' := by
      cases g with
      | nil => exact absurd rfl hgne
      | cons a g' => exact ⟨a, g', rfl⟩
    have hS : S = (a :: g') ++ rest.flatten := by
      rw [← hf]; simp
    have hkeys : ∀ x ∈ a :: g', f x = f a :=
      fun x hx => hconst _ (List.mem_cons_self _ _) x hx a (List.mem_cons_self _ _)
    have hhead : ∀ q, (groupRuns f rest.flatten).head? = some q → q.1 ≠ f a := by
      intro q hq
      cases rest with
      | nil => simp [groupRuns] at hq
      | cons h2 t2 =>
        have h2ne : h2 ≠ [] := hne h2 (List.mem_cons_of_mem _ (List.mem_cons_self _ _))
        obtain ⟨b, h2', rfl⟩ : ∃ b h2', h2 = b :: h2' := by
          cases h2 with
          | nil => exact absurd rfl h2ne
          | cons b h2' => exact ⟨b, h2', rfl⟩
        have hflat : (b :: h2') ++ t2.flatten = ((b :: h2') :: t2).flatten := by simp
        obtain ⟨t, rest', hgr⟩ := groupRuns_cons f b (h2' ++ t2.flatten)
        simp only [List.flatten_cons] at hq
        rw [List.cons_append] at hq
        rw [hgr] at hq
        simp at hq
        have hrel := (List.chain'_cons.mp hchain).1
        have : f a ≠ f b :=
          hrel a (List.mem_cons_self _ _) b (List.mem_cons_self _ _)
        rw [← hq]
        exact fun he => this he.symm
    have hrun := groupRuns_append_run (f := f) (k := f a) (a :: g') rest.flatten
      (by simp) hkeys hhead
    rw [hS, hrun]
    simp only [List.map_cons]
    congr 1
    apply ih
    refine ⟨rfl, fun x hx => hne x (List.mem_cons_of_mem _ hx),
      fun x hx => hconst x (List.mem_cons_of_mem _ hx), ?_⟩
    exact hchain.tail

/-! ## Reduce (`src/compgraph/operations/reduce.py`) -/

/-- `Reduce.__call__`: group the input with `itertools.groupby` keyed by
`[row[k] for k in self.keys]` and concatenate
`self.reducer(tuple(self.keys), group)` over the groups. -/
def reduceOp (r : List String → List Row → List Row) (keys : List String)
    (rows : List Row) : List Row :=
  (groupRuns (keyOf keys) rows).flatMap (fun g => r keys g.2)

/-! ## Stable sorting machinery

`ExternalSort` spills stably-sorted runs and k-way merges them;
`heapq.nlargest` inside `TopN` is a stable descending sort truncated to
`n`.  Both are modelled with an explicit stable insertion sort and a
binary merge that prefers the left (earlier-run) element on ties, the
standard equivalent of the min-heap with a run-id tiebreaker.  Recursions
carry explicit fuel so that closed instances evaluate in the kernel. -/

/-- Insert `x` behind every element strictly smaller than it (stable:
`x` lands before any element it ties with). -/
def insertRow (lt : α → α → Bool) (x : α) : List α → List α
  | [] => [x]
  | y :: ys => if lt y x then y :: insertRow lt x ys else x :: y :: ys

/-- Stable insertion sort ascending under the strict comparison `lt`
(the semantics of Python's stable `sorted`/`list.sort`). -/
def isort (lt : α → α → Bool) : List α → List α
  | [] => []
  | x :: xs => insertRow lt x (isort lt xs)

/-- Fuelled binary merge of two sorted lists; on a tie the left element
is emitted first. -/
def merge2F (lt : α → α → Bool) : Nat → List α → List α → List α
  | 0, xs, ys => xs ++ ys
  | _ + 1, [], ys => ys
  | _ + 1, x :: xs, [] => x :: xs
  | fuel + 1, x :: xs, y :: ys =>
    if lt y x then y :: merge2F lt fuel (x :: xs) ys
    else x :: merge2F lt fuel xs (y :: ys)

/-- Binary merge of two sorted lists, preferring the left on ties. -/
def merge2 (lt : α → α → Bool) (xs ys : List α) : List α :=
  merge2F lt (xs.length + ys.length) xs ys

/-- K-way merge of a list of sorted runs; ties are resolved in favour of
the earliest run (the min-heap's run-id tiebreaker). -/
def mergeRuns (lt : α → α → Bool) (runs : List (List α)) : List α :=
  runs.foldr (merge2 lt) []

/-- Fuelled chunking of the input into memory-bound-sized buffers. -/
def chunksOfF (m : Nat) : Nat → List α → List (List α)
  | _, [] => []
  | 0, l => [l]
  | fuel + 1, x :: xs => (x :: xs.take (m - 1)) :: chunksOfF m fuel (xs.drop (m - 1))

/-- Split the input into consecutive buffers of at most `max m 1` rows. -/
def chunksOf (m : Nat) (l : List α) : List (List α) :=
  chunksOfF m l.length l

/-- Strict comparison of two rows by their key tuple (Python's list `<`
on `[row[k] for k in keys]`). -/
def rowLt (keys : List String) (a b : Row) : Bool :=
  keyLt (keyOf keys a) (keyOf keys b)

/-- Modelled from the spec: `compgraph/external_sort.py` (`ExternalSort`,
used by `Graph.sort` in src/compgraph/graph.py) is not under `src/`.
Spec section 4.5: buffer rows up to the construction-time memory bound,
stably sort each buffer by the key tuple, spill it as a run, and k-way
merge the runs with a min-heap keyed by key value with a run-id
tiebreaker preserving original order. -/
def externalSort (keys : List String) (bound : Nat) (rows : List Row) : List Row :=
  mergeRuns (rowLt keys) ((chunksOf bound rows).map (isort (rowLt keys)))

/-! ## TopN (`src/compgraph/operations/reduce.py`) -/

/-- Descending comparison used by `TopN`: `a` sorts before `b` when
`b[column] < a[column]`. -/
def descLt (column : String) (a b : Row) : Bool :=
  optValLt (b.find? column) (a.find? column)

/-- `TopN.__call__`: `heapq.nlargest(self.n, rows, key=lambda r:
r[self.column_max])`, which the Python library documents as
`sorted(iterable, key=key, reverse=True)[:n]` — a stable descending sort
(first-seen wins ties) truncated to `n` rows. -/
def topN (column : String) (n : Nat) (rows : List Row) : List Row :=
  (isort (descLt column) rows).take n

/-! ## Map (`src/compgraph/operations/map.py`)

`Map.__call__` does `for row in rows: yield from self.mapper(deepcopy(row))`.
To make the defensive copy observable we model the Python heap: a store of
row objects addressed by index, with the input stream passing row
references.  A mapper is summarised by a pure description
`Row → List Row × Row`: the rows it yields and the final (possibly
mutated in place) state of its argument object. -/

/-- The Python heap: row objects addressed by their index. -/
abbrev MStore := List Row

/-- `Map.__call__` over a store: for each input row reference, allocate a
fresh object holding a deep copy of the row (`deepcopy(row)`), run the
mapper on the copy — recording any in-place mutation at the fresh
address — and emit the produced rows. -/
def mapRun (m : Row → List Row × Row) : MStore → List Nat → MStore × List Row
  | st, [] => (st, [])
  | st, i :: is =>
    let c := st.getD i []
    let st2 := (st ++ [c]).set st.length (m c).2
    let r := mapRun m st2 is
    (r.1, (m c).1 ++ r.2)

/-! ## Join (`src/compgraph/operations/join.py`) -/

/-- Python `row[c + suffix] = row.pop(c)`: remove column `c` and bind its
value under the suffixed name (appended, or updated in place if the
suffixed name already exists). -/
def renameCol (r : Row) (c c' : String) : Row :=
  match r.find? c with
  | none => r
  | some v => (r.erase c).set c' v

/-- The joiners' shared per-pair body (`InnerJoiner.__call__` and the
identical blocks in `OuterJoiner`, `LeftJoiner`, `RightJoiner`):
`new_row = deepcopy(row_b)`; compute `same_cols`, the non-key columns
present in both rows; rename each such column with the left suffix in
`row_a` — an in-place mutation of the left row — and with the right
suffix in `new_row`; finally `new_row.update(row_a)`.  Returns the
mutated `row_a` together with the emitted row.  Python iterates
`same_cols` in hash-set order; the model fixes the right row's column
order, which only affects insertion order inside the emitted dict. -/
def mergePair (sa sb : String) (keys : List String) (a b : Row) : Row × Row :=
  let same := b.cols.filter (fun c => (a.find? c).isSome && !(keys.contains c))
  let a' := same.foldl (fun acc c => renameCol acc c (c ++ sa)) a
  let b' := same.foldl (fun acc c => renameCol acc c (c ++ sb)) b
  (a', b'.update a')

/-- One left row crossed with the materialised right side
(`all_rows_b`), threading the in-place mutation of `row_a` through the
inner loop. -/
def crossRowA (sa sb : String) (keys : List String) (a : Row) (bs : List Row) :
    Row × List Row :=
  bs.foldl (fun st b =>
    let p := mergePair sa sb keys st.1 b
    (p.1, st.2 ++ [p.2])) (a, [])

/-- `InnerJoiner.__call__`: materialise `rows_b`, then for each left row
emit one merged row per right row. -/
def innerJoiner (sa sb : String) (keys : List String)
    (rowsA rowsB : List Row) : List Row :=
  rowsA.flatMap (fun a => (crossRowA sa sb keys a rowsB).2)

/-- `LeftJoiner.__call__`: pass the left rows through unchanged when the
materialised right side is empty, otherwise the cartesian body. -/
def leftJoiner (sa sb : String) (keys : List String)
    (rowsA rowsB : List Row) : List Row :=
  if rowsB.isEmpty then rowsA else innerJoiner sa sb keys rowsA rowsB

/-- `OuterJoiner.__call__`: left rows pass through when the right side is
empty; right rows pass through (unmodified) when the left side turned out
empty; otherwise the cartesian body. -/
def outerJoiner (sa sb : String) (keys : List String)
    (rowsA rowsB : List Row) : List Row :=
  if rowsB.isEmpty then rowsA
  else if rowsA.isEmpty then rowsB
  else innerJoiner sa sb keys rowsA rowsB

/-- `RightJoiner.__call__`: right rows pass through (unmodified) when the
left side turned out empty; otherwise the cartesian body (which emits
nothing when the right side is empty). -/
def rightJoiner (sa sb : String) (keys : List String)
    (rowsA rowsB : List Row) : List Row :=
  if rowsA.isEmpty then rowsB else innerJoiner sa sb keys rowsA rowsB

/-- A key-tagged group as produced by `groupby` inside `Join.__call__`. -/
abbrev Group := List (Option Value) × List Row

/-- Fuelled merge loop of `Join.__call__`: while both sides have a
current group, dispatch on the comparison of their key values; once one
side is exhausted, drain the other, handing the joiner an empty list for
the missing side. -/
def joinLoopF (j : List String → List Row → List Row → List Row)
    (keys : List String) : Nat → List Group → List Group → List Row
  | _, [], rgs => rgs.flatMap (fun g => j keys [] g.2)
  | _, lg :: lgs, [] => (lg :: lgs).flatMap (fun g => j keys g.2 [])
  | 0, _ :: _, _ :: _ => []
  | fuel + 1, (lk, la) :: lgs, (rk, ra) :: rgs =>
    if lk = rk then j keys la ra ++ joinLoopF j keys fuel lgs rgs
    else if keyLt lk rk then
      j keys la [] ++ joinLoopF j keys fuel lgs ((rk, ra) :: rgs)
    else j keys [] ra ++ joinLoopF j keys fuel ((lk, la) :: lgs) rgs

/-- `Join.__call__`: group both (key-sorted) inputs with `groupby` on the
key tuple and run the merge loop. -/
def joinOp (j : List String → List Row → List Row → List Row)
    (keys : List String) (rowsA rowsB : List Row) : List Row :=
  let lgs := groupRuns (keyOf keys) rowsA
  let rgs := groupRuns (keyOf keys) rowsB
  joinLoopF j keys (lgs.length + rgs.length) lgs rgs

/-! ## Graph plan and evaluator (`src/compgraph/graph.py`) -/

/-- Errors the evaluator can raise: the `EmptyOperation` exception of
src/compgraph/graph.py, and Python's `TypeError` for an operator invoked
with the wrong number of streams (unreachable on graphs the composition
API builds). -/
inductive RunErr where
  | emptyOperation
  | typeErr
  deriving DecidableEq, Repr

/-- The operators a node can carry, with each operator's stream semantics
as defined above.  The mapper of a `Map` node is summarised by the row
sequence it produces per input row (`Map` deep-copies before invoking
it, so its in-place mutations are not observable downstream — claim C3's
store model). -/
inductive Oper where
  | readIter (name : String)
  | mapN (m : Row → List Row)
  | reduceN (r : List String → List Row → List Row) (keys : List String)
  | sortN (keys : List String) (bound : Nat)
  | joinN (j : List String → List Row → List Row → List Row) (keys : List String)

/-- A plan node: `Graph` holds an optional `_operation` and a tuple
`_graphs` of upstream graphs; every constructor in the source populates
`_graphs` with zero, one or two entries. -/
inductive GraphM where
  | node0 (op : Option Oper)
  | node1 (op : Option Oper) (g : GraphM)
  | node2 (op : Option Oper) (g1 g2 : GraphM)

/-- The named-sources binding map passed to `run` as `**kwargs`, with
each producer summarised by the rows it yields. -/
abbrev SourceMap := List (String × List Row)

/-- Modelled from the spec: `compgraph/operations/base.py`
(`ReadIterFactory`, the zero-upstream source used by
`Graph.graph_from_iter`) is not under `src/`.  Spec sections 4.2 and 4.1:
the source looks its name up in the named-source map and re-emits that
producer's rows; per the section 4.1 contract, running with an unbound
source name fails with `EmptyOperation`. -/
def readIterRows (name : String) (σ : SourceMap) : Except RunErr (List Row) :=
  match σ.lookup name with
  | some rows => .ok rows
  | none => .error .emptyOperation

/-- The body of `Graph.run`: raise `EmptyOperation` when the node has no
operator, otherwise apply the operator to the recursively evaluated
upstream streams (zero, one or two of them). -/
def runBody (σ : SourceMap) : GraphM → Except RunErr (List Row)
  | .node0 none => .error .emptyOperation
  | .node1 none _ => .error .emptyOperation
  | .node2 none _ _ => .error .emptyOperation
  | .node0 (some op) =>
    match op with
    | .readIter name => readIterRows name σ
    | _ => .error .typeErr
  | .node1 (some op) g =>
    (runBody σ g).bind (fun s =>
      match op with
      | .mapN m => .ok (s.flatMap m)
      | .reduceN r keys => .ok (reduceOp r keys s)
      | .sortN keys bound => .ok (externalSort keys bound s)
      | _ => .error .typeErr)
  | .node2 (some op) g1 g2 =>
    (runBody σ g1).bind (fun s1 =>
      (runBody σ g2).bind (fun s2 =>
        match op with
        | .joinN j keys => .ok (joinOp j keys s1 s2)
        | _ => .error .typeErr))

/-- A Python generator object: `Graph.run` is a generator function, so
calling it merely builds this object; none of the body executes (and so
nothing can be raised) at call time. -/
structure GenObj where
  graph : GraphM
  sources : SourceMap

/-- Calling `Graph.run(**kwargs)`: construct the generator object.  No
body code — in particular not the `EmptyOperation` check — runs here. -/
def runCall (g : GraphM) (σ : SourceMap) : GenObj := ⟨g, σ⟩

/-- First advance of the stream `run` returned (`next(gen)`): the body
executes from the top, so any error it raises surfaces now. -/
def GenObj.firstAdvance (go : GenObj) : Except RunErr (Option Row) :=
  match runBody go.sources go.graph with
  | .error e => .error e
  | .ok [] => .ok none
  | .ok (r :: _) => .ok (some r)

/-! ## Lemmas about the stable sorting machinery -/

/-- Ascending under `lt`: no later element is strictly below an earlier
one. -/
abbrev SortedB (lt : α → α → Bool) (l : List α) : Prop :=
  List.Pairwise (fun a b => lt b a = false) l

section SortLemmas

variable {lt : α → α → Bool}

theorem lt_irrefl_of_asymm (hasymm : ∀ a b, lt a b = true → lt b a = false)
    (a : α) : lt a a = false := by
  cases h : lt a a with
  | false => rfl
  | true => rw [← h]; exact hasymm a a h

theorem insertRow_perm (x : α) (l : List α) :
    (insertRow lt x l).Perm (x :: l) := by
  induction l with
  | nil => exact List.Perm.refl _
  | cons y ys ih =>
    simp only [insertRow]
    by_cases h : lt y x = true
    · simp only [h, if_true]
      exact (ih.cons y).trans (List.Perm.swap x y ys)
    · simp only [Bool.not_eq_true] at h
      simp only [h, Bool.false_eq_true, if_false]
      exact List.Perm.refl _

theorem isort_perm (l : List α) : (isort lt l).Perm l := by
  induction l with
  | nil => exact List.Perm.refl _
  | cons x xs ih =>
    exact (insertRow_perm x (isort lt xs)).trans (ih.cons x)

theorem insertRow_sorted (hasymm : ∀ a b, lt a b = true → lt b a = false)
    (hletr : ∀ a b c, lt b a = false → lt c b = false → lt c a = false)
    (x : α) {l : List α} (hs : SortedB lt l) :
    SortedB lt (insertRow lt x l) := by
  induction l with
  | nil => simp [insertRow]
  | cons y ys ih =>
    have hs' := List.pairwise_cons.mp hs
    simp only [insertRow]
    by_cases h : lt y x = true
    · simp only [h, if_true]
      refine List.Pairwise.cons ?_ (ih hs'.2)
      intro e he
      have hmem := (insertRow_perm x ys).mem_iff.mp he
      rcases List.mem_cons.mp hmem with rfl | hin
      · exact hasymm y e h
      · exact hs'.1 e hin
    · simp only [Bool.not_eq_true] at h
      simp only [h, Bool.false_eq_true, if_false]
      refine List.Pairwise.cons ?_ hs
      intro e he
      rcases List.mem_cons.mp he with rfl | hin
      · exact h
      · exact hletr x y e h (hs'.1 e hin)

theorem isort_sorted (hasymm : ∀ a b, lt a b = true → lt b a = false)
    (hletr : ∀ a b c, lt b a = false → lt c b = false → lt c a = false)
    (l : List α) : SortedB lt (isort lt l) := by
  induction l with
  | nil => simp [isort]
  | cons x xs ih => exact insertRow_sorted hasymm hletr x ih

theorem insertRow_filter_pos {p : α → Bool}
    (hp : ∀ a b, p a = true → p b = true → lt a b = false)
    {x : α} (hx : p x = true) (l : List α) :
    (insertRow lt x l).filter p = x :: l.filter p := by
  induction l with
  | nil => simp [insertRow, hx]
  | cons y ys ih =>
    simp only [insertRow]
    by_cases h : lt y x = true
    · have hpy : p y = false := by
        cases hy : p y with
        | false => rfl
        | true => rw [hp y x hy hx] at h; exact absurd h (by simp)
      simp only [h, if_true, List.filter_cons, hpy]
      simpa [hpy] using ih
    · simp only [Bool.not_eq_true] at h
      simp [h, List.filter_cons, hx]

theorem insertRow_filter_neg {p : α → Bool} {x : α} (hx : p x = false)
    (l : List α) : (insertRow lt x l).filter p = l.filter p := by
  induction l with
  | nil => simp [insertRow, hx]
  | cons y ys ih =>
    simp only [insertRow]
    by_cases h : lt y x = true
    · simp only [h, if_true, List.filter_cons]
      cases hy : p y <;> simp [hy, ih]
    · simp only [Bool.not_eq_true] at h
      simp [h, List.filter_cons, hx]

/-- Stability of the buffer sort: the subsequence of elements any
tie-class predicate selects is unchanged. -/
theorem isort_filter {p : α → Bool}
    (hp : ∀ a b, p a = true → p b = true → lt a b = false) (l : List α) :
    (isort lt l).filter p = l.filter p := by
  induction l with
  | nil => rfl
  | cons x xs ih =>
    simp only [isort]
    cases hx : p x with
    | true => rw [insertRow_filter_pos hp hx, ih]; simp [List.filter_cons, hx]
    | false => rw [insertRow_filter_neg hx, ih]; simp [List.filter_cons, hx]

theorem merge2F_perm : ∀ (fuel : Nat) (xs ys : List α),
    (merge2F lt fuel xs ys).Perm (xs ++ ys) := by
  intro fuel
  induction fuel with
  | zero => intro xs ys; exact List.Perm.refl _
  | succ fuel ih =>
    intro xs ys
    cases xs with
    | nil => simp [merge2F]
    | cons x xs =>
      cases ys with
      | nil => simp [merge2F]
      | cons y ys =>
        simp only [merge2F]
        by_cases h : lt y x = true
        · simp only [h, if_true]
          refine ((ih (x :: xs) ys).cons y).trans ?_
          have := @List.perm_middle _ y (x :: xs) ys
          exact this.symm
        · simp only [Bool.not_eq_true] at h
          simp only [h, Bool.false_eq_true, if_false]
          exact (ih xs (y :: ys)).cons x

theorem merge2_perm (xs ys : List α) : (merge2 lt xs ys).Perm (xs ++ ys) :=
  merge2F_perm _ xs ys

theorem merge2F_sorted (hasymm : ∀ a b, lt a b = true → lt b a = false)
    (hletr : ∀ a b c, lt b a = false → lt c b = false → lt c a = false) :
    ∀ (fuel : Nat) (xs ys : List α), xs.length + ys.length ≤ fuel →
      SortedB lt xs → SortedB lt ys → SortedB lt (merge2F lt fuel xs ys) := by
  intro fuel
  induction fuel with
  | zero =>
    intro xs ys hlen hx hy
    have : xs = [] := List.eq_nil_of_length_eq_zero (by omega)
    have hy0 : ys = [] := List.eq_nil_of_length_eq_zero (by omega)
    subst this; subst hy0; simp [merge2F, SortedB]
  | succ fuel ih =>
    intro xs ys hlen hx hy
    cases xs with
    | nil => simpa [merge2F] using hy
    | cons x xs =>
      cases ys with
      | nil => simpa [merge2F] using hx
      | cons y ys =>
        have hx' := List.pairwise_cons.mp hx
        have hy' := List.pairwise_cons.mp hy
        simp only [merge2F]
        by_cases h : lt y x = true
        · simp only [h, if_true]
          refine List.Pairwise.cons ?_ ?_
          · intro e he
            have := (merge2F_perm fuel (x :: xs) ys).mem_iff.mp he
            rcases List.mem_append.mp this with hin | hin
            · rcases List.mem_cons.mp hin with rfl | hin2
              · exact hasymm y e h
              · exact hletr y x e (hasymm y x h) (hx'.1 e hin2)
            · exact hy'.1 e hin
          · exact ih (x :: xs) ys (by simp at hlen ⊢; omega) hx hy'.2
        · simp only [Bool.not_eq_true] at h
          simp only [h, Bool.false_eq_true, if_false]
          refine List.Pairwise.cons ?_ ?_
          · intro e he
            have := (merge2F_perm fuel xs (y :: ys)).mem_iff.mp he
            rcases List.mem_append.mp this with hin | hin
            · exact hx'.1 e hin
            · rcases List.mem_cons.mp hin with rfl | hin2
              · exact h
              · exact hletr x y e h (hy'.1 e hin2)
          · exact ih xs (y :: ys) (by simp at hlen ⊢; omega) hx'.2 hy

theorem merge2_sorted (hasymm : ∀ a b, lt a b = true → lt b a = false)
    (hletr : ∀ a b c, lt b a = false → lt c b = false → lt c a = false)
    {xs ys : List α} (hx : SortedB lt xs) (hy : SortedB lt ys) :
    SortedB lt (merge2 lt xs ys) :=
  merge2F_sorted hasymm hletr _ xs ys le_rfl hx hy

/-- Stability of the k-way merge step: since ties prefer the left run,
all selected elements of the left run precede all selected elements of
the right run. -/
theorem merge2F_filter (hasymm : ∀ a b, lt a b = true → lt b a = false)
    (hletr : ∀ a b c, lt b a = false → lt c b = false → lt c a = false)
    {p : α → Bool} (hp : ∀ a b, p a = true → p b = true → lt a b = false) :
    ∀ (fuel : Nat) (xs ys : List α), xs.length + ys.length ≤ fuel →
      SortedB lt xs → SortedB lt ys →
      (merge2F lt fuel xs ys).filter p = xs.filter p ++ ys.filter p := by
  intro fuel
  induction fuel with
  | zero =>
    intro xs ys hlen _ _
    have : xs = [] := List.eq_nil_of_length_eq_zero (by omega)
    have hy0 : ys = [] := List.eq_nil_of_length_eq_zero (by omega)
    subst this; subst hy0; rfl
  | succ fuel ih =>
    intro xs ys hlen hx hy
    cases xs with
    | nil => simp [merge2F]
    | cons x xs =>
      cases ys with
      | nil => simp [merge2F]
      | cons y ys =>
        simp only [merge2F]
        by_cases h : lt y x = true
        · simp only [h, if_true]
          have hrec : (merge2F lt fuel (x :: xs) ys).filter p =
              (x :: xs).filter p ++ ys.filter p :=
            ih (x :: xs) ys (by simp at hlen ⊢; omega) hx
              (List.pairwise_cons.mp hy).2
          cases hpy : p y with
          | false => simp [List.filter_cons, hpy, hrec]
          | true =>
            have hleft : (x :: xs).filter p = [] := by
              rw [List.filter_eq_nil_iff]
              intro z hz hpz
              have h1 : lt y z = false := hp y z hpy hpz
              have h2 : lt z x = false := by
                rcases List.mem_cons.mp hz with rfl | hin
                · exact lt_irrefl_of_asymm hasymm z
                · exact (List.pairwise_cons.mp hx).1 z hin
              have h3 : lt y x = false := hletr x z y h2 h1
              rw [h] at h3
              exact absurd h3 (by simp)
            simp [List.filter_cons, hpy, hrec, hleft]
        · simp only [Bool.not_eq_true] at h
          simp only [h, Bool.false_eq_true, if_false]
          have hrec : (merge2F lt fuel xs (y :: ys)).filter p =
              xs.filter p ++ (y :: ys).filter p :=
            ih xs (y :: ys) (by simp at hlen ⊢; omega)
              (List.pairwise_cons.mp hx).2 hy
          cases hpx : p x with
          | false => simp [List.filter_cons, hpx, hrec]
          | true => simp [List.filter_cons, hpx, hrec]

theorem merge2_filter (hasymm : ∀ a b, lt a b = true → lt b a = false)
    (hletr : ∀ a b c, lt b a = false → lt c b = false → lt c a = false)
    {p : α → Bool} (hp : ∀ a b, p a = true → p b = true → lt a b = false)
    {xs ys : List α} (hx : SortedB lt xs) (hy : SortedB lt ys) :
    (merge2 lt xs ys).filter p = xs.filter p ++ ys.filter p :=
  merge2F_filter hasymm hletr hp _ xs ys le_rfl hx hy

theorem mergeRuns_perm (runs : List (List α)) :
    (mergeRuns lt runs).Perm runs.flatten := by
  induction runs with
  | nil => exact List.Perm.refl _
  | cons r rest ih =>
    simp only [mergeRuns, List.foldr_cons, List.flatten_cons]
    exact (merge2_perm r _).trans (List.Perm.append_left r ih)

theorem mergeRuns_sorted (hasymm : ∀ a b, lt a b = true → lt b a = false)
    (hletr : ∀ a b c, lt b a = false → lt c b = false → lt c a = false)
    {runs : List (List α)} (h : ∀ r ∈ runs, SortedB lt r) :
    SortedB lt (mergeRuns lt runs) := by
  induction runs with
  | nil => simp [mergeRuns, SortedB]
  | cons r rest ih =>
    simp only [mergeRuns, List.foldr_cons]
    exact merge2_sorted hasymm hletr (h r (List.mem_cons_self _ _))
      (ih (fun s hs => h s (List.mem_cons_of_mem _ hs)))

theorem mergeRuns_filter (hasymm : ∀ a b, lt a b = true → lt b a = false)
    (hletr : ∀ a b c, lt b a = false → lt c b = false → lt c a = false)
    {p : α → Bool} (hp : ∀ a b, p a = true → p b = true → lt a b = false)
    {runs : List (List α)} (h : ∀ r ∈ runs, SortedB lt r) :
    (mergeRuns lt runs).filter p = (runs.map (List.filter p)).flatten := by
  induction runs with
  | nil => rfl
  | cons r rest ih =>
    have hrw : mergeRuns lt (r :: rest) = merge2 lt r (mergeRuns lt rest) := rfl
    rw [hrw, merge2_filter hasymm hletr hp (h r (List.mem_cons_self _ _))
      (mergeRuns_sorted hasymm hletr (fun s hs => h s (List.mem_cons_of_mem _ hs))),
      ih (fun s hs => h s (List.mem_cons_of_mem _ hs))]
    simp

theorem chunksOfF_flatten (m : Nat) : ∀ (fuel : Nat) (l : List α),
    l.length ≤ fuel → (chunksOfF m fuel l).flatten = l := by
  intro fuel
  induction fuel with
  | zero =>
    intro l hl
    have : l = [] := List.eq_nil_of_length_eq_zero (by omega)
    subst this; rfl
  | succ fuel ih =>
    intro l hl
    cases l with
    | nil => rfl
    | cons x xs =>
      simp only [chunksOfF, List.flatten_cons]
      rw [ih (xs.drop (m - 1)) (by simp at hl ⊢; omega)]
      simp [List.take_append_drop]

theorem chunksOf_flatten (m : Nat) (l : List α) : (chunksOf m l).flatten = l :=
  chunksOfF_flatten m _ l le_rfl

/-- Sorting each chunk permutes the concatenation. -/
theorem flatten_map_isort_perm (cs : List (List α)) :
    ((cs.map (isort lt)).flatten).Perm cs.flatten := by
  induction cs with
  | nil => exact List.Perm.refl _
  | cons c rest ih =>
    simp only [List.map_cons, List.flatten_cons]
    exact (isort_perm c).append ih

end SortLemmas

/-! ## The orders used by the engine are strict total orders -/

theorem optValLt_le_trans {a b c : Option Value}
    (h1 : optValLt b a = false) (h2 : optValLt c b = false) :
    optValLt c a = false := by
  by_contra hca
  simp only [Bool.not_eq_false] at hca
  by_cases hab : a = b
  · subst hab; simp_all
  · by_cases hbc : b = c
    · subst hbc; simp_all
    · rcases optValLt_connex hab with h | h
      · exact absurd (optValLt_trans hca h) (by simp [h2])
      · simp_all

theorem rowLt_asymm (K : List String) :
    ∀ a b : Row, rowLt K a b = true → rowLt K b a = false :=
  fun _ _ h => keyLt_asymm h

theorem rowLt_le_trans (K : List String) :
    ∀ a b c : Row, rowLt K b a = false → rowLt K c b = false →
      rowLt K c a = false :=
  fun _ _ _ h1 h2 => keyLt_le_trans h1 h2

theorem descLt_asymm (c : String) :
    ∀ a b : Row, descLt c a b = true → descLt c b a = false :=
  fun _ _ h => optValLt_asymm h

theorem descLt_le_trans (c : String) :
    ∀ x y z : Row, descLt c y x = false → descLt c z y = false →
      descLt c z x = false :=
  fun _ _ _ h1 h2 => optValLt_le_trans h2 h1

/-! ## Auxiliary store and grouping facts -/

theorem set_append_length {β : Type} :
    ∀ (st : List β) (c v : β), (st ++ [c]).set st.length v = st ++ [v] := by
  intro st
  induction st with
  | nil => intro c v; rfl
  | cons x xs ih => intro c v; simp only [List.cons_append, List.length_cons,
      List.set_cons_succ, ih]

/-- A non-empty constant-key stream is a single `groupby` group. -/
theorem groupRuns_const [DecidableEq κ] {f : α → κ} {k : κ} {l : List α}
    (hne : l ≠ []) (hk : ∀ a ∈ l, f a = k) : groupRuns f l = [(k, l)] := by
  have h := groupRuns_append_run (f := f) (k := k) l [] hne hk
    (by intro q hq; simp [groupRuns] at hq)
  simpa using h

/-- When both sides hold a single group with one and the same key, the
merge loop hands the joiner both whole streams exactly once. -/
theorem joinLoopF_single (j : List String → List Row → List Row → List Row)
    (keys : List String) (k : List (Option Value)) (A B : List Row)
    (fuel : Nat) : joinLoopF j keys (fuel + 1) [(k, A)] [(k, B)] = j keys A B := by
  simp [joinLoopF]

/-! ## Concrete rows from the spec's scenarios (sections 8.2-8.5) -/

def exL1 : Row := [("id", Value.int 1), ("v", Value.str "a")]

def exL2 : Row := [("id", Value.int 2), ("v", Value.str "b")]

def exR1 : Row := [("id", Value.int 1), ("v", Value.str "x")]

def exR2 : Row := [("id", Value.int 1), ("v", Value.str "y")]

def exR3 : Row := [("id", Value.int 3), ("v", Value.str "z")]

def kRow (n : Int) : Row := [("k", Value.int n)]

def exT1 : Row := [("k", Value.int 1), ("s", Value.int 5)]

def exT2 : Row := [("k", Value.int 1), ("s", Value.int 5)]

def exT3 : Row := [("k", Value.int 1), ("s", Value.int 3)]

/-! ## The claims -/

/-- C1: the InnerJoiner-based join is claimed to suffix every colliding
non-key column in every output row, yielding
`[{id:1,v_1:"a",v_2:"x"}, {id:1,v_1:"a",v_2:"y"}]` on the spec's
example.  The code disagrees: `InnerJoiner.__call__` renames `row_a`'s
colliding columns in place while pairing it with the *first* right row,
so when the same left row meets the second right row `same_cols` is
empty, the right row's `v` is left unsuffixed and no `v_2` is produced.
This theorem evaluates the embedded join at the spec's own example: the
first output row is dict-equal to the claimed one, but the second is
`{id:1, v:"y", v_1:"a"}` — it still has a bare `v` column, has no `v_2`,
and is not dict-equal to the claimed `{id:1, v_1:"a", v_2:"y"}`. -/
theorem c1_inner_join_collision_bug :
    joinOp (innerJoiner "_1" "_2") ["id"] [exL1, exL2] [exR1, exR2, exR3] =
      [[("id", Value.int 1), ("v_2", Value.str "x"), ("v_1", Value.str "a")],
       [("id", Value.int 1), ("v", Value.str "y"), ("v_1", Value.str "a")]] ∧
    Row.eqv [("id", Value.int 1), ("v_2", Value.str "x"), ("v_1", Value.str "a")]
      [("id", Value.int 1), ("v_1", Value.str "a"), ("v_2", Value.str "x")] = true ∧
    Row.find? [("id", Value.int 1), ("v", Value.str "y"), ("v_1", Value.str "a")]
      ("v_2") = none ∧
    Row.eqv [("id", Value.int 1), ("v", Value.str "y"), ("v_1", Value.str "a")]
      [("id", Value.int 1), ("v_1", Value.str "a"), ("v_2", Value.str "y")] = false := by
  refine ⟨by decide, by decide, by decide, by decide⟩

/-- C7: a LeftJoiner join passes a key's left group through unchanged
when its right group is empty, emits nothing for a key when its left
group is empty, and on the spec's example — left `[{id:2,v:"b"}]`
against the right table `[{id:1,v:"x"},{id:1,v:"y"},{id:3,v:"z"}]`
joined on `['id']` — yields exactly `[{id:2,v:"b"}]`. -/
theorem c7_left_joiner (sa sb : String) (keys : List String)
    (rowsA rowsB : List Row) :
    leftJoiner sa sb keys rowsA [] = rowsA ∧
    leftJoiner sa sb keys [] rowsB = [] ∧
    joinOp (leftJoiner "_1" "_2") ["id"] [exL2] [exR1, exR2, exR3] = [exL2] := by
  refine ⟨rfl, ?_, by decide⟩
  cases rowsB with
  | nil => rfl
  | cons b bs => rfl

/-- C8: OuterJoiner and RightJoiner pass every right-group row through
unchanged — the identity, with no suffix renaming — whenever the left
group is empty, and OuterJoiner likewise passes left rows through
unchanged whenever the right group is empty. -/
theorem c8_outer_right_pass_through (sa sb : String) (keys : List String)
    (rowsA rowsB : List Row) :
    outerJoiner sa sb keys [] rowsB = rowsB ∧
    rightJoiner sa sb keys [] rowsB = rowsB ∧
    outerJoiner sa sb keys rowsA [] = rowsA := by
  refine ⟨?_, rfl, rfl⟩
  cases rowsB with
  | nil => rfl
  | cons b bs => rfl

/-- C9: `Graph.run` is a generator function, so calling it on a graph
whose node has no operator set returns the stream object itself without
raising; the `EmptyOperation` error is raised only when that stream is
first advanced. -/
theorem c9_run_is_lazy (σ : SourceMap) (g g1 g2 : GraphM) :
    (∀ gr : GraphM, runCall gr σ = GenObj.mk gr σ) ∧
    (runCall (.node0 none) σ).firstAdvance = .error .emptyOperation ∧
    (runCall (.node1 none g) σ).firstAdvance = .error .emptyOperation ∧
    (runCall (.node2 none g1 g2) σ).firstAdvance = .error .emptyOperation :=
  ⟨fun _ => rfl, rfl, rfl, rfl⟩

/-- C5: running a `Graph` whose node has no operator set fails with
`EmptyOperation`, and running a graph containing a `from_iter` source
whose name is not bound in the named-sources map fails with
`EmptyOperation`, surfaced through the enclosing nodes to the caller. -/
theorem c5_empty_operation (σ : SourceMap) (name : String)
    (m : Row → List Row) (g g1 g2 : GraphM)
    (h : σ.lookup name = none) :
    runBody σ (.node0 none) = .error .emptyOperation ∧
    runBody σ (.node1 none g) = .error .emptyOperation ∧
    runBody σ (.node2 none g1 g2) = .error .emptyOperation ∧
    runBody σ (.node0 (some (.readIter name))) = .error .emptyOperation ∧
    runBody σ (.node1 (some (.mapN m)) (.node0 (some (.readIter name)))) =
      .error .emptyOperation := by
  refine ⟨rfl, rfl, rfl, ?_, ?_⟩
  · show readIterRows name σ = .error .emptyOperation
    rw [readIterRows, h]
  · show ((readIterRows name σ).bind _ : Except RunErr (List Row)) =
      .error .emptyOperation
    rw [readIterRows, h]
    rfl

/-- Witness for C5 at a concrete graph and an empty source map. -/
theorem c5_empty_operation_witness :
    List.lookup ("input") ([] : SourceMap) = none ∧
    (runBody [] (.node0 none) = .error .emptyOperation ∧
     runBody [] (.node1 none (.node0 none)) = .error .emptyOperation ∧
     runBody [] (.node2 none (.node0 none) (.node0 none)) =
       .error .emptyOperation ∧
     runBody [] (.node0 (some (.readIter ("input")))) =
       .error .emptyOperation ∧
     runBody [] (.node1 (some (.mapN (fun r => [r])))
       (.node0 (some (.readIter ("input"))))) = .error .emptyOperation) :=
  ⟨rfl, c5_empty_operation [] ("input") (fun r => [r])
    (.node0 none) (.node0 none) (.node0 none) rfl⟩

/-- C10: with an empty key tuple every row's extracted key value is the
empty tuple, so the whole stream on each side is one `groupby` group:
`Reduce` invokes its reducer exactly once on the whole (non-empty)
stream, and `Join` invokes its joiner exactly once with both whole
streams. -/
theorem c10_empty_key_single_group
    (r : List String → List Row → List Row)
    (j : List String → List Row → List Row → List Row)
    (S A B : List Row) (hS : S ≠ []) (hA : A ≠ []) (hB : B ≠ []) :
    (∀ row : Row, keyOf [] row = []) ∧
    groupRuns (keyOf []) S = [([], S)] ∧
    reduceOp r [] S = r [] S ∧
    joinOp j [] A B = j [] A B := by
  have hgS := groupRuns_const (f := keyOf ([] : List String)) (k := [])
    hS (fun a _ => rfl)
  have hgA := groupRuns_const (f := keyOf ([] : List String)) (k := [])
    hA (fun a _ => rfl)
  have hgB := groupRuns_const (f := keyOf ([] : List String)) (k := [])
    hB (fun a _ => rfl)
  refine ⟨fun _ => rfl, hgS, ?_, ?_⟩
  · show (groupRuns (keyOf []) S).flatMap (fun g => r [] g.2) = r [] S
    rw [hgS]
    simp
  · show joinLoopF j [] ((groupRuns (keyOf []) A).length +
      (groupRuns (keyOf []) B).length) (groupRuns (keyOf []) A)
      (groupRuns (keyOf []) B) = j [] A B
    rw [hgA, hgB]
    exact joinLoopF_single j [] [] A B 1

/-- Witness for C10 at concrete one-row streams. -/
theorem c10_empty_key_single_group_witness :
    ([exR1] : List Row) ≠ [] ∧ ([exL1] : List Row) ≠ [] ∧
    ([exR2] : List Row) ≠ [] ∧
    ((∀ row : Row, keyOf [] row = []) ∧
     groupRuns (keyOf []) [exR1] = [([], [exR1])] ∧
     reduceOp (fun _ g => g) [] [exR1] = [exR1] ∧
     joinOp (fun _ a b => a ++ b) [] [exL1] [exR2] = [exL1] ++ [exR2]) :=
  ⟨by decide, by decide, by decide,
    c10_empty_key_single_group (fun _ g => g) (fun _ a b => a ++ b)
      [exR1] [exL1] [exR2] (by decide) (by decide) (by decide)⟩

/-- C2: for every reducer `r`, key tuple `K`, and input stream `S`, for
*any* decomposition `gs` of `S` into maximal contiguous runs of rows
sharing a `K`-value (the decomposition is unique), `Reduce` yields
exactly the concatenation, in input order, of `r(K, group)` over those
runs, and every group handed to the reducer is non-empty.  The grouping
— and hence this decomposition — does not depend on how much of a group
the reducer consumed: `groupby` advances past the unconsumed remainder
before the next group starts. -/
theorem c2_reduce_grouping (r : List String → List Row → List Row)
    (K : List String) (S : List Row) (gs : List (List Row))
    (h : MaximalRuns (keyOf K) S gs) :
    reduceOp r K S = (gs.map (r K)).flatten ∧ ∀ g ∈ gs, g ≠ [] := by
  have he := maximalRuns_eq_groupRuns h
  refine ⟨?_, h.2.1⟩
  show (groupRuns (keyOf K) S).flatMap (fun g => r K g.2) = _
  rw [← he, List.map_map]
  rfl

/-- Witness for C2: a three-row stream with two maximal runs under key
`['id']`, reduced by a counting reducer. -/
theorem c2_reduce_grouping_witness :
    MaximalRuns (keyOf ["id"]) [exR1, exR2, exR3] [[exR1, exR2], [exR3]] ∧
    (reduceOp (fun _ g => [[("n", Value.int (Int.ofNat g.length))]]) ["id"]
        [exR1, exR2, exR3] =
      (([[exR1, exR2], [exR3]] : List (List Row)).map
        ((fun _ g => [[("n", Value.int (Int.ofNat g.length))]])
          (["id"] : List String))).flatten ∧
     ∀ g ∈ ([[exR1, exR2], [exR3]] : List (List Row)), g ≠ []) :=
  ⟨⟨by decide, by decide, by decide,
      List.chain'_cons.mpr ⟨by decide, List.chain'_singleton _⟩⟩,
    c2_reduce_grouping
      (fun _ g => [[("n", Value.int (Int.ofNat g.length))]]) ["id"]
      [exR1, exR2, exR3] [[exR1, exR2], [exR3]]
      ⟨by decide, by decide, by decide,
        List.chain'_cons.mpr ⟨by decide, List.chain'_singleton _⟩⟩⟩

/-- C3: `Map` applies the mapper to a deep copy of each input row, so the
output stream is the concatenation of the mapper's rows over the input
in order, and the store cells the input row references point at are left
exactly as they were — even when the mapper mutates its argument in
place (the mutation lands on the fresh copy). -/
theorem c3_map_purity (m : Row → List Row × Row) :
    ∀ (ids : List Nat) (st : MStore), (∀ i ∈ ids, i < st.length) →
      (mapRun m st ids).2 =
        (ids.map (fun i => st.getD i [])).flatMap (fun c => (m c).1) ∧
      ∀ j, j < st.length → (mapRun m st ids).1.getD j [] = st.getD j [] := by
  intro ids
  induction ids with
  | nil => exact fun st h => ⟨rfl, fun j hj => rfl⟩
  | cons i is ih =>
    intro st h
    have hi : i < st.length := h i (List.mem_cons_self _ _)
    have hset : (st ++ [st.getD i []]).set st.length (m (st.getD i [])).2 =
        st ++ [(m (st.getD i [])).2] := set_append_length st _ _
    have hpres : ∀ j, j < st.length →
        (st ++ [(m (st.getD i [])).2]).getD j [] = st.getD j [] := by
      intro j hj
      exact List.getD_append _ _ _ _ hj
    have hvalid : ∀ i' ∈ is, i' < (st ++ [(m (st.getD i [])).2]).length := by
      intro i' hi'
      have := h i' (List.mem_cons_of_mem _ hi')
      simp only [List.length_append, List.length_cons, List.length_nil]
      omega
    have ihv := ih (st ++ [(m (st.getD i [])).2]) hvalid
    have e1 : (mapRun m st (i :: is)).2 =
        (m (st.getD i [])).1 ++ (mapRun m (st ++ [(m (st.getD i [])).2]) is).2 := by
      show (m (st.getD i [])).1 ++
        (mapRun m ((st ++ [st.getD i []]).set st.length (m (st.getD i [])).2) is).2 = _
      rw [hset]
    have e2 : (mapRun m st (i :: is)).1 =
        (mapRun m (st ++ [(m (st.getD i [])).2]) is).1 := by
      show (mapRun m ((st ++ [st.getD i []]).set st.length (m (st.getD i [])).2) is).1 = _
      rw [hset]
    constructor
    · rw [e1, ihv.1]
      simp only [List.map_cons, List.flatMap_cons]
      congr 1
      refine congrArg (fun l : List Row => l.flatMap (fun cc => (m cc).1)) ?_
      exact List.map_congr_left
        (fun i' hi' => hpres i' (h i' (List.mem_cons_of_mem _ hi')))
    · intro j hj
      rw [e2, ihv.2 j (by simp only [List.length_append, List.length_cons,
        List.length_nil]; omega)]
      exact hpres j hj

/-- Witness for C3: a one-row store and a mapper that mutates its
argument in place; the original cell is untouched. -/
theorem c3_map_purity_witness :
    (∀ i ∈ [0], i < ([[("x", Value.int 0)]] : MStore).length) ∧
    ((mapRun (fun r => ([Row.set r ("x") (Value.int 7)],
        Row.set r ("x") (Value.int 7))) [[("x", Value.int 0)]] [0]).2 =
      (([0] : List Nat).map
        (fun i => ([[("x", Value.int 0)]] : MStore).getD i [])).flatMap
        (fun c => ((fun r => ([Row.set r ("x") (Value.int 7)],
          Row.set r ("x") (Value.int 7))) c).1) ∧
     ∀ j, j < ([[("x", Value.int 0)]] : MStore).length →
       (mapRun (fun r => ([Row.set r ("x") (Value.int 7)],
          Row.set r ("x") (Value.int 7))) [[("x", Value.int 0)]] [0]).1.getD j [] =
         ([[("x", Value.int 0)]] : MStore).getD j []) :=
  ⟨by decide, c3_map_purity
    (fun r => ([Row.set r ("x") (Value.int 7)], Row.set r ("x") (Value.int 7)))
    [0] [[("x", Value.int 0)]] (by decide)⟩

/-- C4: for every key tuple, memory bound and finite input, the external
sort yields a permutation of its input that is totally ordered by the
lexicographic key comparison, and it is stable — for every key value the
subsequence of rows carrying it is exactly the input's subsequence, in
input order, across any number of spilled runs; on the spec's example
(bound 2 rows) the seven `{k:·}` rows come out fully sorted. -/
theorem c4_external_sort_stable (K : List String) (bound : Nat)
    (S : List Row) :
    (externalSort K bound S).Perm S ∧
    SortedB (rowLt K) (externalSort K bound S) ∧
    (∀ v : List (Option Value),
      (externalSort K bound S).filter (fun r => keyOf K r == v) =
        S.filter (fun r => keyOf K r == v)) ∧
    externalSort ["k"] 2 [kRow 3, kRow 1, kRow 4, kRow 1, kRow 5, kRow 9, kRow 2] =
      [kRow 1, kRow 1, kRow 2, kRow 3, kRow 4, kRow 5, kRow 9] := by
  have hasymm := rowLt_asymm K
  have hletr := rowLt_le_trans K
  have hsorted : ∀ r ∈ (chunksOf bound S).map (isort (rowLt K)),
      SortedB (rowLt K) r := by
    intro r hr
    obtain ⟨c, _, rfl⟩ := List.mem_map.mp hr
    exact isort_sorted hasymm hletr c
  refine ⟨?_, mergeRuns_sorted hasymm hletr hsorted, ?_, by decide⟩
  · have h1 := @mergeRuns_perm Row (rowLt K)
      ((chunksOf bound S).map (isort (rowLt K)))
    have h2 := @flatten_map_isort_perm Row (rowLt K) (chunksOf bound S)
    have h3 := chunksOf_flatten bound S
    refine h1.trans (h2.trans ?_)
    rw [h3]
  · intro v
    have hp : ∀ a b : Row, (keyOf K a == v) = true → (keyOf K b == v) = true →
        rowLt K a b = false := by
      intro a b ha hb
      show keyLt (keyOf K a) (keyOf K b) = false
      rw [eq_of_beq ha, eq_of_beq hb]
      exact keyLt_irrefl v
    show (mergeRuns (rowLt K) ((chunksOf bound S).map (isort (rowLt K)))).filter
        (fun r => keyOf K r == v) = S.filter (fun r => keyOf K r == v)
    rw [mergeRuns_filter hasymm hletr hp hsorted, List.map_map]
    have hcong : (chunksOf bound S).map
          (List.filter (fun r => keyOf K r == v) ∘ isort (rowLt K)) =
        (chunksOf bound S).map (List.filter (fun r => keyOf K r == v)) :=
      List.map_congr_left (fun c _ => isort_filter hp c)
    rw [hcong, ← List.filter_flatten, chunksOf_flatten]

/-- C6: `TopN(col, n)` emits `min n |group|` rows: a subselection of the
group holding its largest `col` values (everything it leaves out is
`≤` everything it emits), in descending `col` order, with ties kept in
first-seen input order (for every `col` value, the emitted rows carrying
it form the front of the group's subsequence carrying it); on the spec's
tie example `TopN('s',2)` emits the two `s=5` rows in input order. -/
theorem c6_topN_largest_stable (c : String) (n : Nat) (g : List Row) :
    (topN c n g).length = min n g.length ∧
    SortedB (descLt c) (topN c n g) ∧
    (∃ rest, ((topN c n g) ++ rest).Perm g ∧
      ∀ b ∈ rest, ∀ a ∈ topN c n g, descLt c b a = false) ∧
    (∀ v : Option Value,
      (topN c n g).filter (fun r => Row.find? r c == v) =
        (g.filter (fun r => Row.find? r c == v)).take
          ((topN c n g).filter (fun r => Row.find? r c == v)).length) ∧
    topN ("s") 2 [exT1, exT2, exT3] = [exT1, exT2] := by
  have hasymm := descLt_asymm c
  have hletr := descLt_le_trans c
  have hsorted := isort_sorted hasymm hletr g
  have hperm := @isort_perm Row (descLt c) g
  refine ⟨?_, ?_, ?_, ?_, by decide⟩
  · show ((isort (descLt c) g).take n).length = min n g.length
    rw [List.length_take, hperm.length_eq]
  · exact hsorted.sublist (List.take_sublist n _)
  · refine ⟨(isort (descLt c) g).drop n, ?_, ?_⟩
    · show ((isort (descLt c) g).take n ++ (isort (descLt c) g).drop n).Perm g
      rw [List.take_append_drop]
      exact hperm
    · intro b hb a ha
      have hpw : List.Pairwise (fun x y => descLt c y x = false)
          ((isort (descLt c) g).take n ++ (isort (descLt c) g).drop n) := by
        rw [List.take_append_drop]
        exact hsorted
      exact (List.pairwise_append.mp hpw).2.2 a ha b hb
  · intro v
    have hp : ∀ a b : Row, (Row.find? a c == v) = true →
        (Row.find? b c == v) = true → descLt c a b = false := by
      intro a b ha hb
      show optValLt (Row.find? b c) (Row.find? a c) = false
      rw [eq_of_beq ha, eq_of_beq hb]
      exact optValLt_irrefl v
    have hfg : (List.filter (fun r => Row.find? r c == v)
          ((isort (descLt c) g).take n)) ++
        (List.filter (fun r => Row.find? r c == v)
          ((isort (descLt c) g).drop n)) =
        List.filter (fun r => Row.find? r c == v) g := by
      rw [← List.filter_append, List.take_append_drop]
      exact isort_filter hp g
    show List.filter (fun r => Row.find? r c == v) ((isort (descLt c) g).take n) =
      (List.filter (fun r => Row.find? r c == v) g).take
        ((List.filter (fun r => Row.find? r c == v)
          ((isort (descLt c) g).take n)).length)
    rw [← hfg]
    exact (List.take_left _ _).symm

end CG
